import Mathlib

/-!
Verification of the molecule protobuf decoding core (src/codec/decode.go and
the field-iteration entry points in the package root) against its
natural-language specification.

The Go code is shallowly embedded: bytes are natural numbers (< 256 in any
real buffer), `uint64` arithmetic is `Nat` arithmetic reduced `% 2 ^ 64`
where the Go code can wrap, signed casts go through explicit two's-complement
conversions to `Int`, and every Go loop is compiled to a structurally
recursive function whose extra `Nat` argument counts the iterations the Go
loop condition permits (so evaluation is kernel-reducible).  A decode
operation returns its result values together with the buffer state after the
call, mirroring Go's mutation of the receiver.
-/

/-- Errors produced by the decoding core.  Each constructor stands for one
distinct Go error value or `fmt.Errorf` site: `eof` is `io.EOF` (compared
against in `MessageEach`), `unexpectedEOF` is `io.ErrUnexpectedEOF`,
`overflow` is `ErrOverflow`, `badWireType` is `ErrBadWireType`,
`tagOutOfRange v` is the "tag number out of range: %d" error,
`badByteLength n` is "proto: bad byte length %d", `readValueDecode wt e` is
the wrapping "error decoding ...: %v" inside `readValueFromBuffer`,
`groupNotSupported`/`unknownWireType` are its other two failures, and
`messageEachWrap`/`packedEachWrap` are the "error reading value from
buffer: %v" wrappers of the two iterators.  `unknownFieldType` is
`PackedRepeatedEach`'s "unknown field type" error. -/
inductive GoErr : Type where
  | eof : GoErr
  | unexpectedEOF : GoErr
  | overflow : GoErr
  | badWireType : GoErr
  | tagOutOfRange : Nat → GoErr
  | badByteLength : Int → GoErr
  | readValueDecode : Nat → GoErr → GoErr
  | groupNotSupported : Nat → GoErr
  | unknownWireType : Nat → GoErr
  | messageEachWrap : GoErr → GoErr
  | packedEachWrap : GoErr → GoErr
  | unknownFieldType : GoErr
  deriving DecidableEq, Repr

/-- Logical protobuf field types (the `FieldType` enumeration used by
`PackedRepeatedEach`). -/
inductive FieldType : Type where
  | BOOL | INT32 | INT64 | UINT32 | UINT64 | SINT32 | SINT64 | ENUM
  | FIXED32 | SFIXED32 | FLOAT
  | FIXED64 | SFIXED64 | DOUBLE
  | STRING | MESSAGE | BYTES
  | GROUP
  deriving DecidableEq, Repr

/-- The decode buffer: the underlying byte sequence and the read position
(`cb.buf` and `cb.index` in Go).  Bytes of a real buffer are < 256.  The
position is a `Nat`, so `0 ≤ position` holds by construction. -/
structure Buffer : Type where
  buf : List Nat
  index : Nat
  deriving DecidableEq, Repr

/-- The reusable `Value` record populated by `readValueFromBuffer`. -/
structure Value : Type where
  wireType : Nat
  number : Nat
  bytes : List Nat
  deriving DecidableEq, Repr

/-- Result of a Go decode call returning `(x uint64, err error)` and
mutating the receiver: decoded value, error, and the buffer state after the
call. -/
structure RetN : Type where
  val : Nat
  err : Option GoErr
  cb : Buffer
  deriving DecidableEq, Repr

/-- Result of `DecodeTagAndWireType`: `(tag int32, wireType WireType, err)`
plus the buffer state after the call. -/
structure RetTag : Type where
  tag : Nat
  wt : Nat
  err : Option GoErr
  cb : Buffer
  deriving DecidableEq, Repr

/-- Result of `DecodeRawBytes` / `ReadGroup`: the byte run, error, and the
buffer state after the call. -/
structure RetBytes : Type where
  bytes : List Nat
  err : Option GoErr
  cb : Buffer
  deriving DecidableEq, Repr

/-- Result of a Go call returning only `err error`: error plus buffer state
after the call. -/
structure SRet : Type where
  err : Option GoErr
  cb : Buffer
  deriving DecidableEq, Repr

/-- Result of `findGroupEnd`: `(groupEnd int, dataEnd int, err error)` plus
the buffer state after the call (on error Go returns `0, 0, err`). -/
structure GRet : Type where
  groupEnd : Nat
  dataEnd : Nat
  err : Option GoErr
  cb : Buffer
  deriving DecidableEq, Repr

/-- Result of `readValueFromBuffer`: error, buffer state, and the (possibly
partially) updated `Value`. -/
structure RVRet : Type where
  err : Option GoErr
  cb : Buffer
  value : Value
  deriving DecidableEq, Repr

/-- `math.MaxInt32`. -/
def maxInt32 : Nat := 2147483647

/-- Two's-complement reading of a `uint64` bit pattern as Go `int64`
(the cast `int(n)` on a 64-bit platform). -/
def toInt64 (n : Nat) : Int :=
  if n % 2 ^ 64 < 2 ^ 63 then ((n % 2 ^ 64 : Nat) : Int)
  else ((n % 2 ^ 64 : Nat) : Int) - 2 ^ 64

/-- Two's-complement reading of the low 32 bits as Go `int32`. -/
def toInt32 (n : Nat) : Int :=
  if n % 2 ^ 32 < 2 ^ 31 then ((n % 2 ^ 32 : Nat) : Int)
  else ((n % 2 ^ 32 : Nat) : Int) - 2 ^ 32

/-- The `uint64` bit pattern of a Go `int64` value (the cast `uint64(x)`). -/
def natOfUInt64 (x : Int) : Nat := (x % (2 ^ 64 : Int)).toNat

/-- The `uint32` bit pattern of a Go `int32` value (the cast `uint32(x)`). -/
def natOfUInt32 (x : Int) : Nat := (x % (2 ^ 32 : Int)).toNat

/-- Wrap-around of Go `int` (64-bit) addition overflow. -/
def wrapInt64 (x : Int) : Int := (x + 2 ^ 63) % 2 ^ 64 - 2 ^ 63

/-- The body of `DecodeVarint`'s `for` loop.  The Go loop runs
`shift := 0; shift < 64; shift += 7`, i.e. exactly the iterations with
`shift ∈ {0, 7, …, 63}`; `steps` counts the remaining permitted iterations
(10 at entry), so `steps = 0` is exactly the loop exiting with
`shift ≥ 64`, where Go sets `err = ErrOverflow`.  Returns the accumulator
`x`, the local cursor `i`, and the error, matching the Go locals at the
`return` statements. -/
def varintLoop (buf : List Nat) : Nat → Nat → Nat → Nat → Nat × Nat × Option GoErr
  | 0, i, x, _ => (x, i, some .overflow)
  | steps + 1, i, x, shift =>
    if i < buf.length then
      let b := buf.getD i 0
      let x' := (x ||| (b &&& 0x7F) <<< shift) % 2 ^ 64
      if b < 0x80 then (x', i + 1, none)
      else varintLoop buf steps (i + 1) x' (shift + 7)
    else (x, i, some .unexpectedEOF)

/-- `DecodeVarint` (decode.go): reads a varint-encoded integer.  On success
`cb.index` is set to the local cursor; on failure the receiver is left
untouched. -/
def Buffer.DecodeVarint (cb : Buffer) : RetN :=
  match varintLoop cb.buf 10 cb.index 0 0 with
  | (x, i, none) => ⟨x, none, { cb with index := i }⟩
  | (x, _, some e) => ⟨x, some e, cb⟩

/-- `DecodeTagAndWireType` (decode.go): decodes one varint; the low 3 bits
become the wire type, the rest (shifted right by 3) the tag, which must not
exceed `math.MaxInt32`.  Note that on the out-of-range path the wire type
has already been assigned (Go named results). -/
def Buffer.DecodeTagAndWireType (cb : Buffer) : RetTag :=
  match cb.DecodeVarint with
  | ⟨_, some e, cb'⟩ => ⟨0, 0, some e, cb'⟩
  | ⟨v, none, cb'⟩ =>
    let wireType := v &&& 7
    let v' := v >>> 3
    if v' > maxInt32 then ⟨0, wireType, some (.tagOutOfRange v'), cb'⟩
    else ⟨v', wireType, none, cb'⟩

/-- `DecodeFixed64` (decode.go): reads 8 bytes little-endian.  Go also
checks `i < 0`, which cannot occur here: `cb.index + 8` does not overflow
for a nonnegative index. -/
def Buffer.DecodeFixed64 (cb : Buffer) : RetN :=
  let i := cb.index + 8
  if i > cb.buf.length then ⟨0, some .unexpectedEOF, cb⟩
  else
    let x := cb.buf.getD (i - 8) 0
      ||| cb.buf.getD (i - 7) 0 <<< 8
      ||| cb.buf.getD (i - 6) 0 <<< 16
      ||| cb.buf.getD (i - 5) 0 <<< 24
      ||| cb.buf.getD (i - 4) 0 <<< 32
      ||| cb.buf.getD (i - 3) 0 <<< 40
      ||| cb.buf.getD (i - 2) 0 <<< 48
      ||| cb.buf.getD (i - 1) 0 <<< 56
    ⟨x, none, { cb with index := i }⟩

/-- `DecodeFixed32` (decode.go): reads 4 bytes little-endian. -/
def Buffer.DecodeFixed32 (cb : Buffer) : RetN :=
  let i := cb.index + 4
  if i > cb.buf.length then ⟨0, some .unexpectedEOF, cb⟩
  else
    let x := cb.buf.getD (i - 4) 0
      ||| cb.buf.getD (i - 3) 0 <<< 8
      ||| cb.buf.getD (i - 2) 0 <<< 16
      ||| cb.buf.getD (i - 1) 0 <<< 24
    ⟨x, none, { cb with index := i }⟩

/-- `DecodeZigZag32` (decode.go):
`int32((uint32(v) >> 1) ^ uint32((int32(v&1)<<31)>>31))`.
The arithmetic right shift of an `int32` is floor division by `2 ^ 31`. -/
def DecodeZigZag32 (v : Nat) : Int :=
  toInt32 (((v % 2 ^ 32) >>> 1) ^^^ natOfUInt32 (Int.fdiv (toInt32 ((v &&& 1) <<< 31)) (2 ^ 31)))

/-- `DecodeZigZag64` (decode.go):
`int64((v >> 1) ^ uint64((int64(v&1)<<63)>>63))`. -/
def DecodeZigZag64 (v : Nat) : Int :=
  toInt64 ((v >>> 1) ^^^ natOfUInt64 (Int.fdiv (toInt64 ((v &&& 1) <<< 63)) (2 ^ 63)))

/-- `DecodeRawBytes` (decode.go): decode a varint length prefix, reinterpret
it as a signed `int`, reject negative lengths as "bad byte length", compute
the end offset with Go's wrapping `int` addition, and bounds-check it.  For
list values the `alloc` copy and the zero-copy view coincide, so both
branches return the same list. -/
def Buffer.DecodeRawBytes (cb : Buffer) (alloc : Bool) : RetBytes :=
  match cb.DecodeVarint with
  | ⟨_, some e, cb'⟩ => ⟨[], some e, cb'⟩
  | ⟨n, none, cb'⟩ =>
    let nb : Int := toInt64 n
    if nb < 0 then ⟨[], some (.badByteLength nb), cb'⟩
    else
      let endOff : Int := wrapInt64 ((cb'.index : Int) + nb)
      if endOff < (cb'.index : Int) ∨ endOff > (cb'.buf.length : Int) then
        ⟨[], some .unexpectedEOF, cb'⟩
      else
        let result := (cb'.buf.drop cb'.index).take (endOff.toNat - cb'.index)
        ⟨result, none, { cb' with index := endOff.toNat }⟩

/-- Modelled from the spec: `atEnd()` is true iff `position == length`
(`Buffer.EOF` lives in buffer.go, which is not among the provided
sources). -/
def Buffer.EOF (cb : Buffer) : Bool := cb.index == cb.buf.length

/-- Modelled from the spec: `skip(n)` advances the position by exactly `n`
bytes if that stays in bounds and fails with UnexpectedEndOfInput otherwise
(`Buffer.Skip` lives in buffer.go, which is not among the provided
sources).  The count is an `Int` because Go passes `int(l)` of a `uint64`
varint, which may be negative. -/
def Buffer.Skip (cb : Buffer) (count : Int) : SRet :=
  if 0 ≤ count ∧ (cb.index : Int) + count ≤ (cb.buf.length : Int) then
    ⟨none, { cb with index := cb.index + count.toNat }⟩
  else ⟨some .unexpectedEOF, cb⟩

/-- The byte-by-byte varint skip inside `findGroupEnd`'s `WireVarint` case:
`limit := i + 10`, scan forward while the high bit is set.  `steps` is
`limit - i`, so `steps = 0` is exactly the Go check `i >= limit`
(ErrOverflow); that check precedes the end-of-buffer check, as in Go.
Returns the error and the cursor `i` at the terminating byte. -/
def skipVarintScan (bs : List Nat) : Nat → Nat → Option GoErr × Nat
  | 0, i => (some .overflow, i)
  | steps + 1, i =>
    if i < bs.length then
      if bs.getD i 0 &&& 0x80 = 0 then (none, i)
      else skipVarintScan bs steps (i + 1)
    else (some .unexpectedEOF, i)

/-- The `for` loop of `findGroupEnd` (decode.go): repeatedly decode a tag
and wire type and dispatch on the wire type; `bs` is the slice captured as
`bs := cb.buf` at entry.  `fuel` bounds the recursion (loop iterations and
group nesting); `none` means the bound was exhausted, which no theorem
relies on.  The `WireStartGroup` case is Go's `cb.SkipGroup()` inlined so
that the recursion is structural in `fuel`: `SkipGroup` is `findGroupEnd`
(whose `defer` restores the cursor to the position at its entry, here the
position right after the nested start tag) followed, on success, by
committing `groupEnd`. -/
def groupScanLoop : Nat → List Nat → Buffer → Option GRet
  | 0, _, _ => none
  | fuel + 1, bs, cb =>
    let fieldStart := cb.index
    match cb.DecodeTagAndWireType with
    | ⟨_, _, some e, cb'⟩ => some ⟨0, 0, some e, cb'⟩
    | ⟨_, wireType, none, cb'⟩ =>
      match wireType with
      | 5 => -- WireFixed32
        match cb'.Skip 4 with
        | ⟨some e, cb''⟩ => some ⟨0, 0, some e, cb''⟩
        | ⟨none, cb''⟩ => groupScanLoop fuel bs cb''
      | 1 => -- WireFixed64
        match cb'.Skip 8 with
        | ⟨some e, cb''⟩ => some ⟨0, 0, some e, cb''⟩
        | ⟨none, cb''⟩ => groupScanLoop fuel bs cb''
      | 0 => -- WireVarint: skip by scanning for the terminating byte
        match skipVarintScan bs 10 cb'.index with
        | (some e, _) => some ⟨0, 0, some e, cb'⟩
        | (none, i) => groupScanLoop fuel bs { cb' with index := i + 1 }
      | 2 => -- WireBytes
        match cb'.DecodeVarint with
        | ⟨_, some e, cb''⟩ => some ⟨0, 0, some e, cb''⟩
        | ⟨l, none, cb''⟩ =>
          match cb''.Skip (toInt64 l) with
          | ⟨some e, cb3⟩ => some ⟨0, 0, some e, cb3⟩
          | ⟨none, cb3⟩ => groupScanLoop fuel bs cb3
      | 3 => -- WireStartGroup: cb.SkipGroup(), inlined (see the doc comment)
        match groupScanLoop fuel cb'.buf cb' with
        | none => none
        | some g =>
          match g.err with
          | some e => some ⟨0, 0, some e, { g.cb with index := cb'.index }⟩
          | none => groupScanLoop fuel bs { g.cb with index := g.groupEnd }
      | 4 => -- WireEndGroup
        some ⟨cb'.index, fieldStart, none, cb'⟩
      | _ => some ⟨0, 0, some .badWireType, cb'⟩

/-- `findGroupEnd` (decode.go): run the scan loop over `bs := cb.buf`; the
deferred `cb.index = start` restores the cursor on every return. -/
def Buffer.findGroupEnd (cb : Buffer) (fuel : Nat) : Option GRet :=
  match groupScanLoop fuel cb.buf cb with
  | none => none
  | some g => some { g with cb := { g.cb with index := cb.index } }

/-- `SkipGroup` (decode.go): `findGroupEnd`, then commit `groupEnd` on
success. -/
def Buffer.SkipGroup (cb : Buffer) (fuel : Nat) : Option SRet :=
  match cb.findGroupEnd fuel with
  | none => none
  | some g =>
    match g.err with
    | some e => some ⟨some e, g.cb⟩
    | none => some ⟨none, { g.cb with index := g.groupEnd }⟩

/-- `ReadGroup` (decode.go): `findGroupEnd`, then return
`cb.buf[cb.index:dataEnd]` and commit `groupEnd`.  For list values the
`alloc` copy and the zero-copy view coincide, so both branches return the
same list. -/
def Buffer.ReadGroup (cb : Buffer) (alloc : Bool) (fuel : Nat) : Option RetBytes :=
  match cb.findGroupEnd fuel with
  | none => none
  | some g =>
    match g.err with
    | some e => some ⟨[], some e, g.cb⟩
    | none =>
      let results := (g.cb.buf.drop g.cb.index).take (g.dataEnd - g.cb.index)
      some ⟨results, none, { g.cb with index := g.groupEnd }⟩

/-- `readValueFromBuffer` (package root): dispatch on the wire type and
decode one value into the reusable `Value`.  `value.WireType` is assigned
before the switch, so it is updated even on the failure paths. -/
def readValueFromBuffer (wireType : Nat) (buffer : Buffer) (value : Value) : RVRet :=
  let value := { value with wireType := wireType }
  match wireType with
  | 0 => -- WireVarint
    match buffer.DecodeVarint with
    | ⟨_, some e, cb⟩ => ⟨some (.readValueDecode 0 e), cb, value⟩
    | ⟨x, none, cb⟩ => ⟨none, cb, { value with number := x }⟩
  | 5 => -- WireFixed32
    match buffer.DecodeFixed32 with
    | ⟨_, some e, cb⟩ => ⟨some (.readValueDecode 5 e), cb, value⟩
    | ⟨x, none, cb⟩ => ⟨none, cb, { value with number := x }⟩
  | 1 => -- WireFixed64
    match buffer.DecodeFixed64 with
    | ⟨_, some e, cb⟩ => ⟨some (.readValueDecode 1 e), cb, value⟩
    | ⟨x, none, cb⟩ => ⟨none, cb, { value with number := x }⟩
  | 2 => -- WireBytes
    match buffer.DecodeRawBytes false with
    | ⟨_, some e, cb⟩ => ⟨some (.readValueDecode 2 e), cb, value⟩
    | ⟨b, none, cb⟩ => ⟨none, cb, { value with bytes := b }⟩
  | 3 => ⟨some (.groupNotSupported 3), buffer, value⟩ -- WireStartGroup
  | 4 => ⟨some (.groupNotSupported 4), buffer, value⟩ -- WireEndGroup
  | w => ⟨some (.unknownWireType w), buffer, value⟩

/-- The `for !buffer.EOF()` loop of `MessageEach` (package root).  Note the
Go code compares the tag-decoding error only against `io.EOF` and then
immediately overwrites `err` with `readValueFromBuffer`'s result, so any
other tag-decoding failure is discarded and decoding continues with the
partially assigned wire type.  The result is `some r` for a Go return of
`r` (`some none` = returned `nil`); `none` means the fuel bound was
exhausted. -/
def MessageEachLoop (fn : Nat → Value → Bool × Option GoErr) :
    Nat → Buffer → Value → Option (Option GoErr)
  | 0, _, _ => none
  | fuel + 1, buffer, value =>
    if buffer.EOF then some none
    else
      match buffer.DecodeTagAndWireType with
      | ⟨fieldNum, wireType, errTag, cb1⟩ =>
        if errTag = some .eof then some none
        else
          match readValueFromBuffer wireType cb1 value with
          | ⟨some e, _, _⟩ => some (some (.messageEachWrap e))
          | ⟨none, cb2, value'⟩ =>
            match fn fieldNum value' with
            | (shouldContinue, cbErr) =>
              if cbErr.isSome ∨ shouldContinue = false then some cbErr
              else MessageEachLoop fn fuel cb2 value'

/-- `MessageEach` (package root): iterate over the top-level fields,
starting from the zero `Value`.  The loop advances the position by at least
one byte per iteration, so `length + 1` fuel can never be exhausted. -/
def MessageEach (buffer : Buffer) (fn : Nat → Value → Bool × Option GoErr) :
    Option (Option GoErr) :=
  MessageEachLoop fn (buffer.buf.length + 1) buffer ⟨0, 0, []⟩

/-- The wire type chosen by `PackedRepeatedEach`'s `switch fieldType`;
`none` is the `default` case ("unknown field type"). -/
def fieldTypeWire (fieldType : FieldType) : Option Nat :=
  match fieldType with
  | .INT32 | .INT64 | .UINT32 | .UINT64 | .SINT32 | .SINT64 | .BOOL | .ENUM =>
    some 0 -- WireVarint
  | .FIXED64 | .SFIXED64 | .DOUBLE => some 1 -- WireFixed64
  | .FIXED32 | .SFIXED32 | .FLOAT => some 5 -- WireFixed32
  | .STRING | .MESSAGE | .BYTES => some 2 -- WireBytes
  | .GROUP => none

/-- The `for !buffer.EOF()` loop of `PackedRepeatedEach` (package root).
When the callback reports an error or requests a stop, the Go code is
`return nil`, discarding the callback's error. -/
def PackedRepeatedEachLoop (wireType : Nat) (fn : Value → Bool × Option GoErr) :
    Nat → Buffer → Value → Option (Option GoErr)
  | 0, _, _ => none
  | fuel + 1, buffer, value =>
    if buffer.EOF then some none
    else
      match readValueFromBuffer wireType buffer value with
      | ⟨some e, _, _⟩ => some (some (.packedEachWrap e))
      | ⟨none, cb', value'⟩ =>
        match fn value' with
        | (shouldContinue, err) =>
          if err.isSome ∨ shouldContinue = false then some none
          else PackedRepeatedEachLoop wireType fn fuel cb' value'

/-- `PackedRepeatedEach` (package root): map the logical field type to a
wire type (failing on an unmapped type), then iterate from the zero
`Value`. -/
def PackedRepeatedEach (buffer : Buffer) (fieldType : FieldType)
    (fn : Value → Bool × Option GoErr) : Option (Option GoErr) :=
  match fieldTypeWire fieldType with
  | none => some (some .unknownFieldType)
  | some wireType =>
    PackedRepeatedEachLoop wireType fn (buffer.buf.length + 1) buffer ⟨0, 0, []⟩

/-- The canonical variable-length-integer encoding described by the spec:
7-bit groups, low-to-high, the high bit of each byte signalling
continuation, using the minimal number of bytes. -/
def encodeVarint (n : Nat) : List Nat :=
  if n < 0x80 then [n]
  else (n % 0x80 + 0x80) :: encodeVarint (n >>> 7)
termination_by n
decreasing_by
  simp only [Nat.shiftRight_eq_div_pow]
  omega

/-- The standard zig-zag mapping from the spec,
`zigzag(n) = (n << 1) XOR (n arithmetic-shifted right by 31)`, read as a
32-bit unsigned wire value. -/
def zigzag32 (n : Int) : Nat :=
  natOfUInt32 (2 * n) ^^^ natOfUInt32 (Int.fdiv n (2 ^ 31))

/-- The standard zig-zag mapping from the spec at 64-bit width. -/
def zigzag64 (n : Int) : Nat :=
  natOfUInt64 (2 * n) ^^^ natOfUInt64 (Int.fdiv n (2 ^ 63))

/-! ### Arithmetic helper lemmas -/

/-- Bitwise or of a low part below `2 ^ s` with a value shifted left by `s`
is their sum. -/
lemma lor_shiftLeft_eq_add {x m s : Nat} (hx : x < 2 ^ s) :
    x ||| m <<< s = m * 2 ^ s + x := by
  have h := Nat.mul_add_lt_is_or hx m
  rw [Nat.shiftLeft_eq, Nat.lor_comm, Nat.mul_comm m (2 ^ s)]
  exact h.symm

/-- Xor with an all-ones mask is complement: for `x < 2 ^ k`,
`x ^^^ (2 ^ k - 1) = 2 ^ k - 1 - x`. -/
lemma xor_two_pow_sub_one {k x : Nat} (hx : x < 2 ^ k) :
    x ^^^ (2 ^ k - 1) = 2 ^ k - 1 - x := by
  induction k generalizing x with
  | zero =>
    have hx0 : x = 0 := by omega
    subst hx0; simp
  | succ k IH =>
    have hp : (2 : Nat) ^ (k + 1) = 2 * 2 ^ k := by ring
    have h2 : x / 2 < 2 ^ k := by omega
    have hdiv : (x ^^^ (2 ^ (k + 1) - 1)) / 2 = (x / 2) ^^^ (2 ^ k - 1) := by
      rw [Nat.xor_div_two]
      congr 1
      omega
    rw [IH h2] at hdiv
    have hmod : (x ^^^ (2 ^ (k + 1) - 1)) % 2 = (x + (2 ^ (k + 1) - 1)) % 2 :=
      Nat.xor_mod_two_eq
    have hdm := Nat.div_add_mod (x ^^^ (2 ^ (k + 1) - 1)) 2
    omega

/-- Masking with `127` is reduction modulo `128`. -/
lemma and_127_eq_mod (n : Nat) : n &&& 127 = n % 128 := by
  have := Nat.and_pow_two_sub_one_eq_mod n 7
  norm_num at this
  exact this

/-- Masking with `7` is reduction modulo `8`. -/
lemma and_7_eq_mod (n : Nat) : n &&& 7 = n % 8 := by
  have := Nat.and_pow_two_sub_one_eq_mod n 3
  norm_num at this
  exact this

/-- Masking with `1` is reduction modulo `2`. -/
lemma and_1_eq_mod (n : Nat) : n &&& 1 = n % 2 := Nat.and_one_is_mod n

/-- Unpacking `l.drop i = b :: tl`. -/
lemma drop_eq_cons {l : List Nat} {i b : Nat} {tl : List Nat}
    (h : l.drop i = b :: tl) :
    i < l.length ∧ l.getD i 0 = b ∧ l.drop (i + 1) = tl := by
  induction i generalizing l with
  | zero =>
    cases l with
    | nil => simp at h
    | cons a l' =>
      simp only [List.drop_zero] at h
      cases h
      exact ⟨by simp, rfl, rfl⟩
  | succ i IH =>
    cases l with
    | nil => simp at h
    | cons a l' =>
      obtain ⟨h1, h2, h3⟩ := IH (l := l') h
      exact ⟨by simp; omega, h2, h3⟩

/-! ### Varint lemmas -/

/-- Unfolding equation for `encodeVarint` below the continuation
threshold. -/
lemma encodeVarint_small {n : Nat} (h : n < 128) : encodeVarint n = [n] := by
  rw [encodeVarint]
  simp [h]

/-- Unfolding equation for `encodeVarint` at or above the continuation
threshold. -/
lemma encodeVarint_large {n : Nat} (h : ¬n < 128) :
    encodeVarint n = (n % 128 + 128) :: encodeVarint (n >>> 7) := by
  rw [encodeVarint]
  simp [h]

/-- The canonical encoding of `n < 2 ^ (7k + 7)` takes at most `k + 1`
bytes. -/
lemma encodeVarint_length_le : ∀ (k n : Nat), n < 2 ^ (7 * k + 7) →
    (encodeVarint n).length ≤ k + 1 := by
  intro k
  induction k with
  | zero =>
    intro n hn
    norm_num at hn
    rw [encodeVarint_small hn]
    simp
  | succ k IH =>
    intro n hn
    by_cases h : n < 128
    · rw [encodeVarint_small h]
      simp
    · rw [encodeVarint_large h]
      have hlt : n >>> 7 < 2 ^ (7 * k + 7) := by
        rw [Nat.shiftRight_eq_div_pow]
        rw [Nat.div_lt_iff_lt_mul (by norm_num : 0 < 2 ^ 7)]
        calc n < 2 ^ (7 * (k + 1) + 7) := hn
          _ = 2 ^ (7 * k + 7) * 2 ^ 7 := by rw [← pow_add]; ring_nf
      have := IH _ hlt
      simp only [List.length_cons]
      omega

/-- Running `DecodeVarint`'s loop from accumulator `x` (occupying the low
`shift` bits) over the canonical encoding of `n` yields `x + n·2^shift` and
stops exactly after the encoded bytes. -/
lemma varintLoop_encode : ∀ (n : Nat) {buf : List Nat} (steps i x shift : Nat)
    {rest : List Nat},
    buf.drop i = encodeVarint n ++ rest →
    (encodeVarint n).length ≤ steps →
    shift ≤ 63 → n < 2 ^ (64 - shift) → x < 2 ^ shift →
    varintLoop buf steps i x shift =
      (x + n * 2 ^ shift, i + (encodeVarint n).length, none) := by
  intro n
  induction n using Nat.strong_induction_on with
  | _ n IH =>
    intro buf steps i x shift rest hdrop hlen hshift hn hx
    by_cases h128 : n < 128
    · rw [encodeVarint_small h128] at hdrop hlen ⊢
      simp only [List.cons_append, List.nil_append] at hdrop
      simp only [List.length_singleton] at hlen ⊢
      obtain ⟨hi, hb, -⟩ := drop_eq_cons hdrop
      obtain ⟨steps', rfl⟩ : ∃ s, steps = s + 1 := ⟨steps - 1, by omega⟩
      simp only [varintLoop]
      rw [if_pos hi, hb, if_pos h128]
      have hand : n &&& 127 = n := by rw [and_127_eq_mod]; omega
      rw [hand, lor_shiftLeft_eq_add hx]
      have hpow : 2 ^ (64 - shift) * 2 ^ shift = 2 ^ 64 := by
        rw [← pow_add]; congr 1; omega
      have hlt : n * 2 ^ shift + x < 2 ^ 64 := by
        calc n * 2 ^ shift + x < n * 2 ^ shift + 2 ^ shift := by omega
          _ = (n + 1) * 2 ^ shift := by ring
          _ ≤ 2 ^ (64 - shift) * 2 ^ shift := Nat.mul_le_mul_right _ (by omega)
          _ = 2 ^ 64 := hpow
      rw [Nat.mod_eq_of_lt hlt]
      simp [Nat.add_comm]
    · rw [encodeVarint_large h128] at hdrop hlen ⊢
      simp only [List.cons_append] at hdrop
      simp only [List.length_cons] at hlen ⊢
      obtain ⟨hi, hb, hdrop'⟩ := drop_eq_cons hdrop
      obtain ⟨steps', rfl⟩ : ∃ s, steps = s + 1 := ⟨steps - 1, by omega⟩
      have hshift56 : shift ≤ 56 := by
        by_contra hgt
        push_neg at hgt
        have : (2 : Nat) ^ (64 - shift) ≤ 2 ^ 7 :=
          Nat.pow_le_pow_right (by norm_num) (by omega)
        omega
      simp only [varintLoop]
      rw [if_pos hi, hb, if_neg (by omega : ¬n % 128 + 128 < 128)]
      have hand : (n % 128 + 128) &&& 127 = n % 128 := by
        rw [and_127_eq_mod]; omega
      rw [hand, lor_shiftLeft_eq_add hx]
      have hmod : n % 128 < 128 := Nat.mod_lt _ (by norm_num)
      have hpa : (2 : Nat) ^ (shift + 7) = 2 ^ shift * 128 := by
        rw [pow_add]; norm_num
      have hx' : n % 128 * 2 ^ shift + x < 2 ^ (shift + 7) := by
        calc n % 128 * 2 ^ shift + x < n % 128 * 2 ^ shift + 2 ^ shift := by omega
          _ = (n % 128 + 1) * 2 ^ shift := by ring
          _ ≤ 128 * 2 ^ shift := Nat.mul_le_mul_right _ (by omega)
          _ = 2 ^ (shift + 7) := by rw [hpa]; ring
      have hxlt64 : n % 128 * 2 ^ shift + x < 2 ^ 64 :=
        lt_of_lt_of_le hx' (Nat.pow_le_pow_right (by norm_num) (by omega))
      rw [Nat.mod_eq_of_lt hxlt64]
      have hsh : n >>> 7 = n / 128 := by
        rw [Nat.shiftRight_eq_div_pow]
      have hlt : n >>> 7 < n := by
        rw [hsh]; exact Nat.div_lt_self (by omega) (by norm_num)
      have hn' : n >>> 7 < 2 ^ (64 - (shift + 7)) := by
        rw [Nat.shiftRight_eq_div_pow]
        rw [Nat.div_lt_iff_lt_mul (by norm_num : 0 < 2 ^ 7)]
        calc n < 2 ^ (64 - shift) := hn
          _ = 2 ^ (64 - (shift + 7)) * 2 ^ 7 := by rw [← pow_add]; congr 1; omega
      rw [IH (n >>> 7) hlt _ _ _ _ hdrop' (by omega) (by omega) hn' hx']
      have hsplit := Nat.div_add_mod n 128
      simp only [Prod.mk.injEq]
      refine ⟨?_, by omega, trivial⟩
      rw [hsh, hpa]
      conv_rhs => rw [← hsplit]
      ring

/-- `DecodeVarint` over a buffer whose remaining bytes start with the
canonical encoding of `n < 2 ^ 64` returns `n` with no error and advances
the position by exactly the encoded length. -/
lemma DecodeVarint_encode {cb : Buffer} {n : Nat} {rest : List Nat}
    (hn : n < 2 ^ 64) (hdrop : cb.buf.drop cb.index = encodeVarint n ++ rest) :
    cb.DecodeVarint = ⟨n, none, ⟨cb.buf, cb.index + (encodeVarint n).length⟩⟩ := by
  have hlen : (encodeVarint n).length ≤ 10 := by
    have h9 := encodeVarint_length_le 9 n (lt_trans hn (by norm_num))
    omega
  have h := varintLoop_encode n 10 cb.index 0 0 hdrop hlen (by norm_num) hn (by norm_num)
  unfold Buffer.DecodeVarint
  rw [h]
  simp

/-- Progress and bounds for a successful run of `DecodeVarint`'s loop. -/
lemma varintLoop_ok {buf : List Nat} :
    ∀ {steps i x shift x' i' : Nat},
      varintLoop buf steps i x shift = (x', i', none) →
      i < i' ∧ i' ≤ buf.length := by
  intro steps
  induction steps with
  | zero =>
    intro i x shift x' i' h
    simp [varintLoop] at h
  | succ steps IH =>
    intro i x shift x' i' h
    simp only [varintLoop] at h
    by_cases hi : i < buf.length
    · rw [if_pos hi] at h
      by_cases hb : buf.getD i 0 < 128
      · rw [if_pos hb] at h
        injection h with h1 h23
        injection h23 with h2 h3
        omega
      · rw [if_neg hb] at h
        have := IH h
        omega
    · rw [if_neg hi] at h
      simp at h

/-- Ten consecutive continuation bytes starting at the cursor make the
varint loop fail with `ErrOverflow`. -/
lemma varintLoop_overflow {buf : List Nat} :
    ∀ (steps i x shift : Nat),
      (∀ k, k < steps → i + k < buf.length ∧ 128 ≤ buf.getD (i + k) 0) →
      (varintLoop buf steps i x shift).2.2 = some .overflow := by
  intro steps
  induction steps with
  | zero => intro i x shift _; rfl
  | succ steps IH =>
    intro i x shift hcont
    obtain ⟨hi, hb⟩ := hcont 0 (by omega)
    simp only [Nat.add_zero] at hi hb
    simp only [varintLoop]
    rw [if_pos hi, if_neg (by omega : ¬buf.getD i 0 < 128)]
    refine IH (i + 1) _ _ (fun k hk => ?_)
    have h := hcont (k + 1) (by omega)
    have heq : i + (k + 1) = i + 1 + k := by omega
    rw [heq] at h
    exact h

/-- A buffer whose remaining bytes are all continuation bytes and run out
within the 10-byte budget makes the varint loop fail with end of input. -/
lemma varintLoop_eof {buf : List Nat} :
    ∀ (steps i x shift : Nat), 1 ≤ steps →
      (∀ j, i ≤ j → j < buf.length → 128 ≤ buf.getD j 0) →
      buf.length < i + steps →
      (varintLoop buf steps i x shift).2.2 = some .unexpectedEOF := by
  intro steps
  induction steps with
  | zero =>
    intro i x shift h
    exact (Nat.not_succ_le_zero 0 h).elim
  | succ steps IH =>
    intro i x shift _ hcont hlen
    simp only [varintLoop]
    by_cases hi : i < buf.length
    · rw [if_pos hi]
      have hb := hcont i (le_refl i) hi
      rw [if_neg (by omega : ¬buf.getD i 0 < 128)]
      exact IH (i + 1) _ _ (by omega) (fun j hj hjl => hcont j (by omega) hjl)
        (by omega)
    · rw [if_neg hi]

/-- State facts for `DecodeVarint`: the bytes never change, a successful
call strictly advances the position and stays in bounds, and a failing
call leaves the buffer untouched. -/
lemma DecodeVarint_state (cb : Buffer) :
    (cb.DecodeVarint).cb.buf = cb.buf ∧
      ((cb.DecodeVarint).err = none →
        cb.index < (cb.DecodeVarint).cb.index ∧
          (cb.DecodeVarint).cb.index ≤ cb.buf.length) ∧
      (∀ e, (cb.DecodeVarint).err = some e → (cb.DecodeVarint).cb = cb) := by
  unfold Buffer.DecodeVarint
  rcases hv : varintLoop cb.buf 10 cb.index 0 0 with ⟨x, i, e⟩
  cases e with
  | none =>
    obtain ⟨h1, h2⟩ := varintLoop_ok hv
    exact ⟨rfl, fun _ => ⟨h1, h2⟩, fun e h => by simp at h⟩
  | some e => exact ⟨rfl, fun h => by simp at h, fun e h => rfl⟩

/-- State facts for `DecodeTagAndWireType`: bytes preserved; in-bounds
positions stay in bounds; a fully successful call strictly advances the
position within bounds. -/
lemma DecodeTagAndWireType_state (cb : Buffer) :
    (cb.DecodeTagAndWireType).cb.buf = cb.buf ∧
      (cb.index ≤ cb.buf.length →
        (cb.DecodeTagAndWireType).cb.index ≤ cb.buf.length) ∧
      ((cb.DecodeTagAndWireType).err = none →
        cb.index < (cb.DecodeTagAndWireType).cb.index ∧
          (cb.DecodeTagAndWireType).cb.index ≤ cb.buf.length) := by
  obtain ⟨h1, h2, h3⟩ := DecodeVarint_state cb
  unfold Buffer.DecodeTagAndWireType
  rcases hv : cb.DecodeVarint with ⟨v, e, cb'⟩
  rw [hv] at h1 h2 h3
  simp only at h1 h2 h3
  cases e with
  | some e =>
    have hc := h3 e rfl
    rw [hc]
    exact ⟨rfl, fun h => h, fun h => by simp at h⟩
  | none =>
    obtain ⟨ha, hb⟩ := h2 rfl
    by_cases hrange : v >>> 3 > maxInt32 <;>
      simp only [hrange, if_true, if_false, reduceIte] <;>
      exact ⟨h1, fun _ => hb, fun _ => ⟨ha, hb⟩⟩

/-- State facts for `DecodeFixed64`. -/
lemma DecodeFixed64_state (cb : Buffer) :
    (cb.DecodeFixed64).cb.buf = cb.buf ∧
      ((cb.DecodeFixed64).err = none →
        (cb.DecodeFixed64).cb.index = cb.index + 8 ∧
          cb.index + 8 ≤ cb.buf.length) ∧
      (∀ e, (cb.DecodeFixed64).err = some e → (cb.DecodeFixed64).cb = cb) := by
  unfold Buffer.DecodeFixed64
  by_cases h : cb.index + 8 > cb.buf.length <;> simp [h] <;> omega

/-- State facts for `DecodeFixed32`. -/
lemma DecodeFixed32_state (cb : Buffer) :
    (cb.DecodeFixed32).cb.buf = cb.buf ∧
      ((cb.DecodeFixed32).err = none →
        (cb.DecodeFixed32).cb.index = cb.index + 4 ∧
          cb.index + 4 ≤ cb.buf.length) ∧
      (∀ e, (cb.DecodeFixed32).err = some e → (cb.DecodeFixed32).cb = cb) := by
  unfold Buffer.DecodeFixed32
  by_cases h : cb.index + 4 > cb.buf.length <;> simp [h] <;> omega

/-- State facts for `Skip`: bytes preserved, a successful skip lands in
bounds, a failing skip leaves the buffer untouched. -/
lemma Skip_state (cb : Buffer) (count : Int) :
    (cb.Skip count).cb.buf = cb.buf ∧
      ((cb.Skip count).err = none → (cb.Skip count).cb.index ≤ cb.buf.length) ∧
      (∀ e, (cb.Skip count).err = some e → (cb.Skip count).cb = cb) := by
  unfold Buffer.Skip
  by_cases h : 0 ≤ count ∧ (cb.index : Int) + count ≤ (cb.buf.length : Int) <;>
    simp [h]
  omega

/-- A successful forward scan for a varint terminator stays strictly inside
the buffer and does not move backwards. -/
lemma skipVarintScan_ok {bs : List Nat} :
    ∀ {steps i i' : Nat}, skipVarintScan bs steps i = (none, i') →
      i' < bs.length ∧ i ≤ i' := by
  intro steps
  induction steps with
  | zero =>
    intro i i' h
    simp [skipVarintScan] at h
  | succ steps IH =>
    intro i i' h
    simp only [skipVarintScan] at h
    by_cases hi : i < bs.length
    · rw [if_pos hi] at h
      by_cases hb : bs.getD i 0 &&& 0x80 = 0
      · rw [if_pos hb] at h
        injection h with h1 h2
        omega
      · rw [if_neg hb] at h
        have := IH h
        omega
    · rw [if_neg hi] at h
      simp at h

/-- Master facts for the scan loop of `findGroupEnd`: the byte sequence is
preserved; from an in-bounds cursor the state at return is in bounds; and a
successful scan yields offsets such that the tag at `dataEnd` decodes as an
EndGroup tag (wire type 4) ending exactly at `groupEnd`, with the state at
return positioned at `groupEnd` and `groupEnd` in bounds. -/
lemma groupScanLoop_spec :
    ∀ (fuel : Nat) (cb : Buffer) (g : GRet),
      groupScanLoop fuel cb.buf cb = some g →
      g.cb.buf = cb.buf ∧
        (cb.index ≤ cb.buf.length → g.cb.index ≤ cb.buf.length) ∧
        (g.err = none →
          g.groupEnd ≤ cb.buf.length ∧ g.cb.index = g.groupEnd ∧
            ∃ t, Buffer.DecodeTagAndWireType ⟨cb.buf, g.dataEnd⟩ =
              ⟨t, 4, none, ⟨cb.buf, g.groupEnd⟩⟩) := by
  intro fuel
  induction fuel with
  | zero =>
    intro cb g h
    simp [groupScanLoop] at h
  | succ fuel IH =>
    intro cb g h
    simp only [groupScanLoop] at h
    split at h
    next tag wt e cb' heq =>
      injection h with h'
      subst h'
      obtain ⟨htb, htl, -⟩ := DecodeTagAndWireType_state cb
      rw [heq] at htb htl
      simp only at htb htl
      exact ⟨htb, htl, fun hnone => by simp at hnone⟩
    next tag wt cb' heq =>
      obtain ⟨htb, htl, hta⟩ := DecodeTagAndWireType_state cb
      rw [heq] at htb htl hta
      simp only at htb htl hta
      split at h
      · -- WireFixed32: Skip 4
        obtain ⟨hsb, hsl, hse⟩ := Skip_state cb' 4
        split at h
        next e cb'' hsk =>
          injection h with h'
          subst h'
          rw [hsk] at hse
          simp only at hse
          have hc := hse e rfl
          rw [hc]
          exact ⟨htb, htl, fun hnone => by simp at hnone⟩
        next cb'' hsk =>
          rw [hsk] at hsb hsl
          simp only at hsb hsl
          have hbuf : cb''.buf = cb.buf := by rw [hsb, htb]
          rw [← hbuf] at h
          obtain ⟨g1, g2, g3⟩ := IH cb'' g h
          rw [hbuf] at g1 g2 g3
          have hpre : cb''.index ≤ cb.buf.length := by
            have := hsl trivial
            rw [htb] at this
            exact this
          exact ⟨g1, fun _ => g2 hpre, g3⟩
      · -- WireFixed64: Skip 8
        obtain ⟨hsb, hsl, hse⟩ := Skip_state cb' 8
        split at h
        next e cb'' hsk =>
          injection h with h'
          subst h'
          rw [hsk] at hse
          simp only at hse
          have hc := hse e rfl
          rw [hc]
          exact ⟨htb, htl, fun hnone => by simp at hnone⟩
        next cb'' hsk =>
          rw [hsk] at hsb hsl
          simp only at hsb hsl
          have hbuf : cb''.buf = cb.buf := by rw [hsb, htb]
          rw [← hbuf] at h
          obtain ⟨g1, g2, g3⟩ := IH cb'' g h
          rw [hbuf] at g1 g2 g3
          have hpre : cb''.index ≤ cb.buf.length := by
            have := hsl trivial
            rw [htb] at this
            exact this
          exact ⟨g1, fun _ => g2 hpre, g3⟩
      · -- WireVarint: scan for the terminating byte
        split at h
        next e i hsv =>
          injection h with h'
          subst h'
          exact ⟨htb, htl, fun hnone => by simp at hnone⟩
        next i hsv =>
          obtain ⟨hi, -⟩ := skipVarintScan_ok hsv
          have hbuf : ({ cb' with index := i + 1 } : Buffer).buf = cb.buf := htb
          rw [← hbuf] at h
          obtain ⟨g1, g2, g3⟩ := IH _ g h
          rw [hbuf] at g1 g2 g3
          have hpre : i + 1 ≤ cb.buf.length := by omega
          exact ⟨g1, fun _ => g2 hpre, g3⟩
      · -- WireBytes: length prefix then Skip
        split at h
        next l e cb'' hdv =>
          injection h with h'
          subst h'
          obtain ⟨hv1, -, hv3⟩ := DecodeVarint_state cb'
          rw [hdv] at hv3
          simp only at hv3
          have hc := hv3 e rfl
          rw [hc]
          exact ⟨htb, htl, fun hnone => by simp at hnone⟩
        next l cb'' hdv =>
          obtain ⟨hv1, hv2, -⟩ := DecodeVarint_state cb'
          rw [hdv] at hv1 hv2
          simp only at hv1 hv2
          obtain ⟨-, hbnd⟩ := hv2 trivial
          obtain ⟨hsb, hsl, hse⟩ := Skip_state cb'' (toInt64 l)
          split at h
          next e cb3 hsk =>
            injection h with h'
            subst h'
            rw [hsk] at hse
            simp only at hse
            have hc := hse e rfl
            rw [hc]
            refine ⟨show cb''.buf = cb.buf by rw [hv1, htb], fun _ => ?_,
              fun hnone => by simp at hnone⟩
            show cb''.index ≤ cb.buf.length
            rw [htb] at hbnd
            exact hbnd
          next cb3 hsk =>
            rw [hsk] at hsb hsl
            simp only at hsb hsl
            have hbuf : cb3.buf = cb.buf := by rw [hsb, hv1, htb]
            rw [← hbuf] at h
            obtain ⟨g1, g2, g3⟩ := IH cb3 g h
            rw [hbuf] at g1 g2 g3
            have hpre : cb3.index ≤ cb.buf.length := by
              have := hsl trivial
              rw [hv1, htb] at this
              exact this
            exact ⟨g1, fun _ => g2 hpre, g3⟩
      · -- WireStartGroup: nested SkipGroup
        split at h
        next hnone => simp at h
        next g' hg' =>
          obtain ⟨i1, i2, i3⟩ := IH cb' g' hg'
          split at h
          next e herr =>
            injection h with h'
            subst h'
            refine ⟨by simp [i1, htb], fun hin => ?_, fun hnone => by simp at hnone⟩
            simp only
            exact htl hin
          next herr =>
            obtain ⟨hge, -, -⟩ := i3 herr
            have hbuf : ({ g'.cb with index := g'.groupEnd } : Buffer).buf = cb.buf := by
              simp [i1, htb]
            rw [← hbuf] at h
            obtain ⟨g1, g2, g3⟩ := IH _ g h
            rw [hbuf] at g1 g2 g3
            have hpre : g'.groupEnd ≤ cb.buf.length := by rw [← htb]; exact hge
            exact ⟨g1, fun _ => g2 hpre, g3⟩
      · -- WireEndGroup
        injection h with h'
        subst h'
        obtain ⟨hlt, hb⟩ := hta trivial
        refine ⟨htb, fun _ => hb, fun _ => ⟨hb, rfl, ⟨tag, ?_⟩⟩⟩
        have he : (⟨cb.buf, cb.index⟩ : Buffer) = cb := rfl
        rw [he, heq]
        have hc : cb' = (⟨cb.buf, cb'.index⟩ : Buffer) := by rw [← htb]
        rw [← hc]
      · -- invalid wire type
        injection h with h'
        subst h'
        exact ⟨htb, htl, fun hnone => by simp at hnone⟩

/-- `findGroupEnd` restores the cursor on every return (the deferred
assignment), preserves the bytes, and on success reports offsets with the
EndGroup-tag property. -/
lemma findGroupEnd_spec {cb : Buffer} {fuel : Nat} {g : GRet}
    (h : cb.findGroupEnd fuel = some g) :
    g.cb = ⟨cb.buf, cb.index⟩ ∧
      (g.err = none →
        g.groupEnd ≤ cb.buf.length ∧
          ∃ t, Buffer.DecodeTagAndWireType ⟨cb.buf, g.dataEnd⟩ =
            ⟨t, 4, none, ⟨cb.buf, g.groupEnd⟩⟩) := by
  unfold Buffer.findGroupEnd at h
  rcases hs : groupScanLoop fuel cb.buf cb with _ | g'
  · rw [hs] at h
    simp at h
  · rw [hs] at h
    injection h with h'
    subst h'
    obtain ⟨s1, s2, s3⟩ := groupScanLoop_spec fuel cb g' hs
    constructor
    · show ({ g'.cb with index := cb.index } : Buffer) = _
      rw [show ({ g'.cb with index := cb.index } : Buffer) =
        ⟨g'.cb.buf, cb.index⟩ from rfl, s1]
    · intro hnone
      obtain ⟨h1, -, h3⟩ := s3 hnone
      exact ⟨h1, h3⟩

/-- State facts for `DecodeRawBytes`: bytes preserved, in-bounds positions
stay in bounds. -/
lemma DecodeRawBytes_state (cb : Buffer) (alloc : Bool) :
    (cb.DecodeRawBytes alloc).cb.buf = cb.buf ∧
      (cb.index ≤ cb.buf.length →
        (cb.DecodeRawBytes alloc).cb.index ≤ cb.buf.length) := by
  obtain ⟨h1, h2, h3⟩ := DecodeVarint_state cb
  unfold Buffer.DecodeRawBytes
  rcases hv : cb.DecodeVarint with ⟨n, e, cb'⟩
  rw [hv] at h1 h2 h3
  simp only at h1 h2 h3
  cases e with
  | some e =>
    have hc := h3 e rfl
    rw [hc]
    exact ⟨rfl, fun h => h⟩
  | none =>
    obtain ⟨ha, hb⟩ := h2 (by trivial)
    by_cases hneg : toInt64 n < 0
    · simp only [if_pos hneg]
      exact ⟨h1, fun _ => hb⟩
    · simp only [if_neg hneg]
      by_cases hoob : wrapInt64 ((cb'.index : Int) + toInt64 n) < (cb'.index : Int) ∨
          wrapInt64 ((cb'.index : Int) + toInt64 n) > (cb'.buf.length : Int)
      · simp only [if_pos hoob]
        exact ⟨h1, fun _ => hb⟩
      · simp only [if_neg hoob]
        push_neg at hoob
        refine ⟨h1, fun _ => ?_⟩
        have h2' := hoob.2
        rw [h1] at h2'
        omega

/-- Decoding the zig-zag wire value of an in-range signed 32-bit integer
recovers it. -/
lemma zigzag32_roundtrip (n : Int) (h1 : -(2 ^ 31) ≤ n) (h2 : n < 2 ^ 31) :
    DecodeZigZag32 (zigzag32 n) = n := by
  have hfd : Int.fdiv n (2 ^ 31) = if n < 0 then -1 else 0 := by
    rw [Int.fdiv_eq_ediv _ (by norm_num)]
    split <;> omega
  by_cases hn : n < 0
  · set m : Nat := (-n).toNat with hm
    have hmn : (m : Int) = -n := Int.toNat_of_nonneg (by omega)
    have hm1 : 1 ≤ m := by omega
    have hm2 : m ≤ 2 ^ 31 := by omega
    have he1 : natOfUInt32 (2 * n) = 2 ^ 32 - 2 * m := by
      unfold natOfUInt32
      omega
    have he2 : natOfUInt32 (Int.fdiv n (2 ^ 31)) = 2 ^ 32 - 1 := by
      rw [hfd]
      simp only [if_pos hn]
      unfold natOfUInt32
      omega
    have hv : zigzag32 n = 2 * m - 1 := by
      unfold zigzag32
      rw [he1, he2]
      rw [@xor_two_pow_sub_one 32 (2 ^ 32 - 2 * m) (by omega)]
      omega
    rw [hv]
    unfold DecodeZigZag32
    have hva : (2 * m - 1) &&& 1 = 1 := by rw [and_1_eq_mod]; omega
    rw [hva]
    have h31 : (1 : Nat) <<< 31 = 2 ^ 31 := by norm_num [Nat.shiftLeft_eq]
    rw [h31]
    have ht1 : toInt32 (2 ^ 31) = -(2 ^ 31) := by
      unfold toInt32
      norm_num
    rw [ht1]
    have hfd2 : Int.fdiv (-(2 ^ 31)) (2 ^ 31) = -1 := by
      rw [Int.fdiv_eq_ediv _ (by norm_num)]
      omega
    rw [hfd2]
    have hn1 : natOfUInt32 (-1) = 2 ^ 32 - 1 := by
      unfold natOfUInt32
      omega
    rw [hn1]
    have hmod : (2 * m - 1) % 2 ^ 32 = 2 * m - 1 := Nat.mod_eq_of_lt (by omega)
    rw [hmod]
    have hshr : (2 * m - 1) >>> 1 = m - 1 := by
      rw [Nat.shiftRight_eq_div_pow, pow_one]
      omega
    rw [hshr]
    rw [@xor_two_pow_sub_one 32 (m - 1) (by omega)]
    unfold toInt32
    split <;> omega
  · push_neg at hn
    set m : Nat := n.toNat with hm
    have hmn : (m : Int) = n := Int.toNat_of_nonneg hn
    have he1 : natOfUInt32 (2 * n) = 2 * m := by
      unfold natOfUInt32
      omega
    have he2 : natOfUInt32 (Int.fdiv n (2 ^ 31)) = 0 := by
      rw [hfd]
      simp only [if_neg (by omega : ¬n < 0)]
      unfold natOfUInt32
      omega
    have hv : zigzag32 n = 2 * m := by
      unfold zigzag32
      rw [he1, he2]
      exact Nat.xor_zero _
    rw [hv]
    unfold DecodeZigZag32
    have hva : (2 * m) &&& 1 = 0 := by rw [and_1_eq_mod]; omega
    rw [hva]
    have h0 : (0 : Nat) <<< 31 = 0 := by simp
    rw [h0]
    have ht0 : toInt32 0 = 0 := by unfold toInt32; norm_num
    rw [ht0]
    rw [Int.zero_fdiv]
    have hn0 : natOfUInt32 0 = 0 := by unfold natOfUInt32; simp
    rw [hn0]
    have hmod : (2 * m) % 2 ^ 32 = 2 * m := Nat.mod_eq_of_lt (by omega)
    rw [hmod]
    have hshr : (2 * m) >>> 1 = m := by
      rw [Nat.shiftRight_eq_div_pow, pow_one]
      omega
    rw [hshr]
    rw [Nat.xor_zero]
    unfold toInt32
    split <;> omega

/-- Decoding the zig-zag wire value of an in-range signed 64-bit integer
recovers it. -/
lemma zigzag64_roundtrip (n : Int) (h1 : -(2 ^ 63) ≤ n) (h2 : n < 2 ^ 63) :
    DecodeZigZag64 (zigzag64 n) = n := by
  have hfd : Int.fdiv n (2 ^ 63) = if n < 0 then -1 else 0 := by
    rw [Int.fdiv_eq_ediv _ (by norm_num)]
    split <;> omega
  by_cases hn : n < 0
  · set m : Nat := (-n).toNat with hm
    have hmn : (m : Int) = -n := Int.toNat_of_nonneg (by omega)
    have hm1 : 1 ≤ m := by omega
    have hm2 : m ≤ 2 ^ 63 := by omega
    have he1 : natOfUInt64 (2 * n) = 2 ^ 64 - 2 * m := by
      unfold natOfUInt64
      omega
    have he2 : natOfUInt64 (Int.fdiv n (2 ^ 63)) = 2 ^ 64 - 1 := by
      rw [hfd]
      simp only [if_pos hn]
      unfold natOfUInt64
      omega
    have hv : zigzag64 n = 2 * m - 1 := by
      unfold zigzag64
      rw [he1, he2]
      rw [@xor_two_pow_sub_one 64 (2 ^ 64 - 2 * m) (by omega)]
      omega
    rw [hv]
    unfold DecodeZigZag64
    have hva : (2 * m - 1) &&& 1 = 1 := by rw [and_1_eq_mod]; omega
    rw [hva]
    have h63 : (1 : Nat) <<< 63 = 2 ^ 63 := by norm_num [Nat.shiftLeft_eq]
    rw [h63]
    have ht1 : toInt64 (2 ^ 63) = -(2 ^ 63) := by
      unfold toInt64
      norm_num
    rw [ht1]
    have hfd2 : Int.fdiv (-(2 ^ 63)) (2 ^ 63) = -1 := by
      rw [Int.fdiv_eq_ediv _ (by norm_num)]
      omega
    rw [hfd2]
    have hn1 : natOfUInt64 (-1) = 2 ^ 64 - 1 := by
      unfold natOfUInt64
      omega
    rw [hn1]
    have hshr : (2 * m - 1) >>> 1 = m - 1 := by
      rw [Nat.shiftRight_eq_div_pow, pow_one]
      omega
    rw [hshr]
    rw [@xor_two_pow_sub_one 64 (m - 1) (by omega)]
    unfold toInt64
    split <;> omega
  · push_neg at hn
    set m : Nat := n.toNat with hm
    have hmn : (m : Int) = n := Int.toNat_of_nonneg hn
    have he1 : natOfUInt64 (2 * n) = 2 * m := by
      unfold natOfUInt64
      omega
    have he2 : natOfUInt64 (Int.fdiv n (2 ^ 63)) = 0 := by
      rw [hfd]
      simp only [if_neg (by omega : ¬n < 0)]
      unfold natOfUInt64
      omega
    have hv : zigzag64 n = 2 * m := by
      unfold zigzag64
      rw [he1, he2]
      exact Nat.xor_zero _
    rw [hv]
    unfold DecodeZigZag64
    have hva : (2 * m) &&& 1 = 0 := by rw [and_1_eq_mod]; omega
    rw [hva]
    have h0 : (0 : Nat) <<< 63 = 0 := by simp
    rw [h0]
    have ht0 : toInt64 0 = 0 := by unfold toInt64; norm_num
    rw [ht0]
    rw [Int.zero_fdiv]
    have hn0 : natOfUInt64 0 = 0 := by unfold natOfUInt64; simp
    rw [hn0]
    have hshr : (2 * m) >>> 1 = m := by
      rw [Nat.shiftRight_eq_div_pow, pow_one]
      omega
    rw [hshr]
    rw [Nat.xor_zero]
    unfold toInt64
    split <;> omega

/-! ### Claim theorems -/

/-- C4: for every unsigned 64-bit value `n`, calling `DecodeVarint` on a
buffer whose remaining bytes begin with the canonical variable-length
encoding of `n` returns `n` with no error and advances the cursor position
by exactly the number of bytes in that encoding. -/
theorem c4_varint_roundtrip (n : Nat) (cb : Buffer) (rest : List Nat)
    (hn : n < 2 ^ 64)
    (hdrop : cb.buf.drop cb.index = encodeVarint n ++ rest) :
    cb.DecodeVarint = ⟨n, none, ⟨cb.buf, cb.index + (encodeVarint n).length⟩⟩ :=
  DecodeVarint_encode hn hdrop

/-- Witness for C4 at `n = 300`, encoded `[172, 2]`, with a trailing
byte. -/
theorem c4_witness :
    (Buffer.mk [172, 2, 9] 0).DecodeVarint = ⟨300, none, ⟨[172, 2, 9], 2⟩⟩ := by
  have h := c4_varint_roundtrip 300 (Buffer.mk [172, 2, 9] 0) [9] (by norm_num)
    (by simp [encodeVarint])
  simpa [encodeVarint] using h

/-- C5: `DecodeVarint` fails with Overflow whenever the 10 bytes at the
cursor all have the continuation bit set, and fails with
UnexpectedEndOfInput whenever the remaining bytes all have the continuation
bit set but the input ends within the 10-byte budget; in both cases the
buffer is left untouched. -/
theorem c5_varint_failures (cb : Buffer) :
    ((∀ k, k < 10 → cb.index + k < cb.buf.length ∧
        128 ≤ cb.buf.getD (cb.index + k) 0) →
      cb.DecodeVarint.err = some GoErr.overflow ∧ cb.DecodeVarint.cb = cb) ∧
      ((∀ j, cb.index ≤ j → j < cb.buf.length → 128 ≤ cb.buf.getD j 0) →
        cb.buf.length < cb.index + 10 →
        cb.DecodeVarint.err = some GoErr.unexpectedEOF ∧
          cb.DecodeVarint.cb = cb) := by
  constructor
  · intro hcont
    have h := varintLoop_overflow 10 cb.index 0 0 hcont
    unfold Buffer.DecodeVarint
    rcases hv : varintLoop cb.buf 10 cb.index 0 0 with ⟨x, i, e⟩
    rw [hv] at h
    simp only at h
    subst h
    exact ⟨rfl, rfl⟩
  · intro hcont hlen
    have h := varintLoop_eof 10 cb.index 0 0 (by norm_num) hcont hlen
    unfold Buffer.DecodeVarint
    rcases hv : varintLoop cb.buf 10 cb.index 0 0 with ⟨x, i, e⟩
    rw [hv] at h
    simp only at h
    subst h
    exact ⟨rfl, rfl⟩

/-- Witness for C5: ten continuation bytes overflow; two continuation bytes
then end of input give UnexpectedEndOfInput. -/
theorem c5_witness :
    ((Buffer.mk (List.replicate 10 128) 0).DecodeVarint).err =
        some GoErr.overflow ∧
      ((Buffer.mk [128, 128] 0).DecodeVarint).err =
        some GoErr.unexpectedEOF := by
  constructor
  · exact ((c5_varint_failures (Buffer.mk (List.replicate 10 128) 0)).1
      (by decide)).1
  · exact ((c5_varint_failures (Buffer.mk [128, 128] 0)).2
      (by
        intro j h1 h2
        have hj : j < 2 := by simpa using h2
        interval_cases j <;> decide) (by decide)).1

/-- C7: for every signed integer of the respective width,
`DecodeZigZag32`/`DecodeZigZag64` applied to the standard zig-zag-mapped
unsigned wire value return exactly that integer. -/
theorem c7_zigzag_roundtrip (n : Int) :
    (-(2 ^ 31) ≤ n → n < 2 ^ 31 → DecodeZigZag32 (zigzag32 n) = n) ∧
      (-(2 ^ 63) ≤ n → n < 2 ^ 63 → DecodeZigZag64 (zigzag64 n) = n) :=
  ⟨fun h1 h2 => zigzag32_roundtrip n h1 h2,
    fun h1 h2 => zigzag64_roundtrip n h1 h2⟩

/-- Witness for C7 at `n = -3` (wire value 5). -/
theorem c7_witness :
    DecodeZigZag32 (zigzag32 (-3)) = -3 ∧ DecodeZigZag64 (zigzag64 (-3)) = -3 :=
  ⟨(c7_zigzag_roundtrip (-3)).1 (by norm_num) (by norm_num),
    (c7_zigzag_roundtrip (-3)).2 (by norm_num) (by norm_num)⟩

/-- C8: `DecodeTagAndWireType` round-trips every pair
`(fieldNumber, wireType)` with `1 ≤ fieldNumber ≤ MaxInt32` and
`wireType ∈ {0..5}` through the varint encoding of
`fieldNumber <<< 3 ||| wireType`. -/
theorem c8_tag_roundtrip (f w : Nat) (cb : Buffer) (rest : List Nat)
    (hf1 : 1 ≤ f) (hf2 : f ≤ maxInt32) (hw : w ≤ 5)
    (hdrop : cb.buf.drop cb.index = encodeVarint (f <<< 3 ||| w) ++ rest) :
    cb.DecodeTagAndWireType =
      ⟨f, w, none,
        ⟨cb.buf, cb.index + (encodeVarint (f <<< 3 ||| w)).length⟩⟩ := by
  have hmax : maxInt32 = 2147483647 := rfl
  have hval : f <<< 3 ||| w = f * 8 + w := by
    rw [Nat.lor_comm]
    have h := @lor_shiftLeft_eq_add w f 3 (by omega)
    norm_num at h
    exact h
  have hv64 : f <<< 3 ||| w < 2 ^ 64 := by
    rw [hval]
    omega
  have hdec := DecodeVarint_encode hv64 hdrop
  unfold Buffer.DecodeTagAndWireType
  rw [hdec]
  have ha : (f <<< 3 ||| w) &&& 7 = w := by
    rw [hval, and_7_eq_mod]
    omega
  have hs : (f <<< 3 ||| w) >>> 3 = f := by
    rw [hval, Nat.shiftRight_eq_div_pow]
    norm_num
    omega
  simp only [ha, hs]
  rw [if_neg (by omega)]

/-- Witness for C8 at `(fieldNumber, wireType) = (1, 4)`, encoded `[12]`,
with a trailing byte. -/
theorem c8_witness :
    (Buffer.mk [12, 7] 0).DecodeTagAndWireType = ⟨1, 4, none, ⟨[12, 7], 1⟩⟩ := by
  have h := c8_tag_roundtrip 1 4 (Buffer.mk [12, 7] 0) [7] (by norm_num)
    (by norm_num [maxInt32]) (by norm_num) (by simp [encodeVarint])
  simpa [encodeVarint] using h

/-- C6: on every return of `findGroupEnd` (success or failure) the cursor
equals its entry value and the bytes are unchanged; on success `SkipGroup`
sets the position to `groupEnd`, the offset immediately after the matching
EndGroup tag (witnessed by decoding the tag at `dataEnd`), and `ReadGroup`
sets the same position while returning exactly the bytes from the entry
position up to, not including, `dataEnd`, the first byte of that EndGroup
tag. -/
theorem c6_group_frame_effects (fuel : Nat) (cb : Buffer) (alloc : Bool) (g : GRet)
    (h : cb.findGroupEnd fuel = some g) :
    (g.cb.index = cb.index ∧ g.cb.buf = cb.buf) ∧
      (g.err = none →
        cb.SkipGroup fuel = some ⟨none, ⟨cb.buf, g.groupEnd⟩⟩ ∧
          cb.ReadGroup alloc fuel =
            some ⟨(cb.buf.drop cb.index).take (g.dataEnd - cb.index), none,
              ⟨cb.buf, g.groupEnd⟩⟩ ∧
          (∃ t, Buffer.DecodeTagAndWireType ⟨cb.buf, g.dataEnd⟩ =
            ⟨t, 4, none, ⟨cb.buf, g.groupEnd⟩⟩)) := by
  obtain ⟨h1, h2⟩ := findGroupEnd_spec h
  refine ⟨⟨by rw [h1], by rw [h1]⟩, fun hnone => ?_⟩
  have h1' := h1
  obtain ⟨hge, ht⟩ := h2 hnone
  refine ⟨?_, ?_, ht⟩
  · unfold Buffer.SkipGroup
    rw [h]
    rcases g with ⟨ge, de, e, gcb⟩
    simp only at h1'
    cases e with
    | none =>
      simp only
      rw [h1']
    | some e => simp at hnone
  · unfold Buffer.ReadGroup
    rw [h]
    rcases g with ⟨ge, de, e, gcb⟩
    simp only at h1'
    cases e with
    | none =>
      simp only
      rw [h1']
    | some e => simp at hnone

/-- C9: every decode operation preserves the cursor invariant
`position ≤ length` (positions are naturals, so `0 ≤ position` holds by
construction) and never mutates the underlying byte sequence — only the
position changes. -/
theorem c9_cursor_invariant (cb : Buffer) (alloc : Bool)
    (hinv : cb.index ≤ cb.buf.length) :
    ((cb.DecodeVarint).cb.buf = cb.buf ∧
        (cb.DecodeVarint).cb.index ≤ cb.buf.length) ∧
      ((cb.DecodeTagAndWireType).cb.buf = cb.buf ∧
        (cb.DecodeTagAndWireType).cb.index ≤ cb.buf.length) ∧
      ((cb.DecodeFixed32).cb.buf = cb.buf ∧
        (cb.DecodeFixed32).cb.index ≤ cb.buf.length) ∧
      ((cb.DecodeFixed64).cb.buf = cb.buf ∧
        (cb.DecodeFixed64).cb.index ≤ cb.buf.length) ∧
      ((cb.DecodeRawBytes alloc).cb.buf = cb.buf ∧
        (cb.DecodeRawBytes alloc).cb.index ≤ cb.buf.length) ∧
      (∀ fuel s, cb.SkipGroup fuel = some s →
        s.cb.buf = cb.buf ∧ s.cb.index ≤ cb.buf.length) ∧
      (∀ fuel r, cb.ReadGroup alloc fuel = some r →
        r.cb.buf = cb.buf ∧ r.cb.index ≤ cb.buf.length) := by
  refine ⟨?_, ?_, ?_, ?_, ?_, ?_, ?_⟩
  · obtain ⟨h1, h2, h3⟩ := DecodeVarint_state cb
    refine ⟨h1, ?_⟩
    rcases he : (cb.DecodeVarint).err with _ | e
    · exact (h2 he).2
    · rw [h3 e he]; exact hinv
  · obtain ⟨h1, h2, -⟩ := DecodeTagAndWireType_state cb
    exact ⟨h1, h2 hinv⟩
  · obtain ⟨h1, h2, h3⟩ := DecodeFixed32_state cb
    refine ⟨h1, ?_⟩
    rcases he : (cb.DecodeFixed32).err with _ | e
    · obtain ⟨ha, hb⟩ := h2 he; omega
    · rw [h3 e he]; exact hinv
  · obtain ⟨h1, h2, h3⟩ := DecodeFixed64_state cb
    refine ⟨h1, ?_⟩
    rcases he : (cb.DecodeFixed64).err with _ | e
    · obtain ⟨ha, hb⟩ := h2 he; omega
    · rw [h3 e he]; exact hinv
  · obtain ⟨h1, h2⟩ := DecodeRawBytes_state cb alloc
    exact ⟨h1, h2 hinv⟩
  · intro fuel s h
    unfold Buffer.SkipGroup at h
    rcases hf : cb.findGroupEnd fuel with _ | g
    · rw [hf] at h; simp at h
    · rw [hf] at h
      obtain ⟨h1, h2⟩ := findGroupEnd_spec hf
      rcases g with ⟨ge, de, e, gcb⟩
      simp only at h1
      cases e with
      | some e =>
        injection h with h'
        subst h'
        rw [h1]
        exact ⟨rfl, hinv⟩
      | none =>
        injection h with h'
        subst h'
        obtain ⟨hge, -⟩ := h2 (by trivial)
        rw [h1]
        exact ⟨rfl, by simpa using hge⟩
  · intro fuel r h
    unfold Buffer.ReadGroup at h
    rcases hf : cb.findGroupEnd fuel with _ | g
    · rw [hf] at h; simp at h
    · rw [hf] at h
      obtain ⟨h1, h2⟩ := findGroupEnd_spec hf
      rcases g with ⟨ge, de, e, gcb⟩
      simp only at h1
      cases e with
      | some e =>
        injection h with h'
        subst h'
        rw [h1]
        exact ⟨rfl, hinv⟩
      | none =>
        injection h with h'
        subst h'
        obtain ⟨hge, -⟩ := h2 (by trivial)
        rw [h1]
        exact ⟨rfl, by simpa using hge⟩

/-- Witness for C6 on the group body `field 1 varint 5` followed by the
EndGroup tag `12`: `groupEnd = 3`, `dataEnd = 2`. -/
theorem c6_witness :
    (Buffer.mk [8, 5, 12] 0).SkipGroup 5 = some ⟨none, ⟨[8, 5, 12], 3⟩⟩ ∧
      (Buffer.mk [8, 5, 12] 0).ReadGroup false 5 =
        some ⟨[8, 5], none, ⟨[8, 5, 12], 3⟩⟩ := by
  have h := c6_group_frame_effects 5 (Buffer.mk [8, 5, 12] 0) false
    ⟨3, 2, none, ⟨[8, 5, 12], 0⟩⟩ (by decide)
  obtain ⟨-, h2⟩ := h
  obtain ⟨hs, hr, -⟩ := h2 rfl
  exact ⟨hs, by simpa using hr⟩

/-- Witness for C9 on a one-byte buffer. -/
theorem c9_witness :
    ((Buffer.mk [5] 0).DecodeVarint).cb.buf = [5] ∧
      ((Buffer.mk [5] 0).DecodeVarint).cb.index ≤ 1 := by
  have h := c9_cursor_invariant (Buffer.mk [5] 0) false (by decide)
  exact ⟨h.1.1, h.1.2⟩

/-- C10: whenever `DecodeVarint`, `DecodeFixed32` or `DecodeFixed64`
returns an error, the buffer (in particular the position) is exactly as at
entry; `DecodeRawBytes` does not share this property — when the length
prefix decodes but the subsequent check fails, the position is that after
the consumed length prefix, which is strictly past the entry position. -/
theorem c10_error_atomicity (cb : Buffer) (alloc : Bool) :
    (∀ e, cb.DecodeVarint.err = some e → cb.DecodeVarint.cb = cb) ∧
      (∀ e, cb.DecodeFixed32.err = some e → cb.DecodeFixed32.cb = cb) ∧
      (∀ e, cb.DecodeFixed64.err = some e → cb.DecodeFixed64.cb = cb) ∧
      (cb.DecodeVarint.err = none →
        ∀ e, (cb.DecodeRawBytes alloc).err = some e →
          (cb.DecodeRawBytes alloc).cb = cb.DecodeVarint.cb ∧
            cb.index < cb.DecodeVarint.cb.index) := by
  obtain ⟨-, hv2, hv3⟩ := DecodeVarint_state cb
  refine ⟨hv3, (DecodeFixed32_state cb).2.2, (DecodeFixed64_state cb).2.2,
    fun hnone e herr => ?_⟩
  obtain ⟨hadv, -⟩ := hv2 hnone
  refine ⟨?_, hadv⟩
  unfold Buffer.DecodeRawBytes at herr ⊢
  rcases hv : cb.DecodeVarint with ⟨n, e', cb'⟩
  rw [hv] at herr hnone
  simp only at hnone
  subst hnone
  by_cases hneg : toInt64 n < 0
  · simp only [if_pos hneg]
  · simp only [if_neg hneg] at herr ⊢
    by_cases hoob : wrapInt64 ((cb'.index : Int) + toInt64 n) < (cb'.index : Int) ∨
        wrapInt64 ((cb'.index : Int) + toInt64 n) > ((cb'.buf.length : Int)) 
    · simp only [if_pos hoob]
    · simp only [if_neg hoob] at herr
      simp at herr

/-- Witness for C10: decoding raw bytes from `[2]` fails its bounds check
after the one-byte length prefix was consumed. -/
theorem c10_witness :
    ((Buffer.mk [2] 0).DecodeVarint).err = none ∧
      ((Buffer.mk [2] 0).DecodeRawBytes false).cb =
        ((Buffer.mk [2] 0).DecodeVarint).cb ∧
      (Buffer.mk [2] 0).index < ((Buffer.mk [2] 0).DecodeVarint).cb.index := by
  have h := (c10_error_atomicity (Buffer.mk [2] 0) false).2.2.2 (by decide)
    GoErr.unexpectedEOF (by decide)
  exact ⟨by decide, h.1, h.2⟩

/-- C2 counterexample: on the buffer `[2]` the length prefix decodes
fine (to 2), the end offset `2` is past the one-byte sequence, and
`DecodeRawBytes` reports UnexpectedEndOfInput — not BadLength as the claim
states for an out-of-bounds end offset. -/
theorem c2_counterexample :
    ((Buffer.mk [2] 0).DecodeVarint).err = none ∧
      ((Buffer.mk [2] 0).DecodeRawBytes false).err =
        some GoErr.unexpectedEOF := by decide

/-- C2 as amended: `DecodeRawBytes` propagates a length-prefix decode
failure unchanged (in particular UnexpectedEndOfInput for a truncated
prefix); reports BadLength exactly when the prefix decodes to a negative
signed value; reports UnexpectedEndOfInput when the computed end offset
wraps below the position or exceeds the sequence length; and succeeds
otherwise. -/
theorem c2_rawbytes_error_cases (cb : Buffer) (alloc : Bool) :
    (∀ e, cb.DecodeVarint.err = some e →
      (cb.DecodeRawBytes alloc).err = some e) ∧
      (cb.DecodeVarint.err = none → toInt64 cb.DecodeVarint.val < 0 →
        (cb.DecodeRawBytes alloc).err =
          some (GoErr.badByteLength (toInt64 cb.DecodeVarint.val))) ∧
      (cb.DecodeVarint.err = none → 0 ≤ toInt64 cb.DecodeVarint.val →
        (wrapInt64 ((cb.DecodeVarint.cb.index : Int) +
              toInt64 cb.DecodeVarint.val) <
            (cb.DecodeVarint.cb.index : Int) ∨
          wrapInt64 ((cb.DecodeVarint.cb.index : Int) +
              toInt64 cb.DecodeVarint.val) >
            (cb.DecodeVarint.cb.buf.length : Int)) →
        (cb.DecodeRawBytes alloc).err = some GoErr.unexpectedEOF) ∧
      (cb.DecodeVarint.err = none → 0 ≤ toInt64 cb.DecodeVarint.val →
        ¬(wrapInt64 ((cb.DecodeVarint.cb.index : Int) +
              toInt64 cb.DecodeVarint.val) <
            (cb.DecodeVarint.cb.index : Int) ∨
          wrapInt64 ((cb.DecodeVarint.cb.index : Int) +
              toInt64 cb.DecodeVarint.val) >
            (cb.DecodeVarint.cb.buf.length : Int)) →
        (cb.DecodeRawBytes alloc).err = none) := by
  unfold Buffer.DecodeRawBytes
  rcases hv : cb.DecodeVarint with ⟨n, e, cb'⟩
  cases e with
  | some e =>
    refine ⟨fun e' he' => ?_, fun hn => by simp at hn, fun hn => by simp at hn,
      fun hn => by simp at hn⟩
    injection he' with he''
    subst he''
    rfl
  | none =>
    refine ⟨fun e' he' => by simp at he', fun _ hneg => ?_, fun _ hpos hoob => ?_,
      fun _ hpos hoob => ?_⟩
    · simp only at hneg ⊢
      simp only [if_pos hneg]
    · simp only at hpos hoob ⊢
      simp only [if_neg (by omega : ¬toInt64 n < 0), if_pos hoob]
    · simp only at hpos hoob ⊢
      simp only [if_neg (by omega : ¬toInt64 n < 0), if_neg hoob]

/-- Witness for the amended C2: a valid one-byte payload decodes with no
error through the in-bounds branch. -/
theorem c2_witness :
    ((Buffer.mk [1, 7] 0).DecodeRawBytes false).err = none :=
  (c2_rawbytes_error_cases (Buffer.mk [1, 7] 0) false).2.2.2 (by decide)
    (by decide) (by decide)

/-- C3: whenever the callback of `PackedRepeatedEach` reports an error or
requests "do not continue", the function stops the loop and returns no
error (`nil`), regardless of what the callback reported.  The buffer is
arbitrary, so this covers the stop happening at any iteration: the loop
carries no state besides the buffer and the reused `Value`. -/
theorem c3_packed_callback_stop_returns_nil (cb : Buffer)
    (fieldType : FieldType) (wt : Nat) (fn : Value → Bool × Option GoErr)
    (r : RVRet)
    (hwt : fieldTypeWire fieldType = some wt)
    (heof : cb.EOF = false)
    (hread : readValueFromBuffer wt cb ⟨0, 0, []⟩ = r)
    (hrerr : r.err = none)
    (hstop : (fn r.value).2.isSome ∨ (fn r.value).1 = false) :
    PackedRepeatedEach cb fieldType fn = some none := by
  unfold PackedRepeatedEach
  rw [hwt]
  show PackedRepeatedEachLoop wt fn (cb.buf.length + 1) cb ⟨0, 0, []⟩ =
    some none
  simp only [PackedRepeatedEachLoop]
  have hcond : ¬cb.EOF = true := by rw [heof]; simp
  rw [if_neg hcond]
  rcases r with ⟨re, rcb, rv⟩
  simp only at hrerr hstop
  subst hrerr
  rw [hread]
  rcases hfn : fn rv with ⟨cont, err⟩
  rw [hfn] at hstop
  simp only at hstop
  simp only [hfn]
  rw [if_pos hstop]

/-- Witness for C3: on a two-element packed varint run the callback reports
an error after the first element, yet the iteration returns `nil`. -/
theorem c3_witness :
    PackedRepeatedEach (Buffer.mk [1, 2] 0) FieldType.INT64
      (fun _ => (true, some GoErr.overflow)) = some none := by
  exact c3_packed_callback_stop_returns_nil (Buffer.mk [1, 2] 0)
    FieldType.INT64 0 (fun _ => (true, some GoErr.overflow))
    ⟨none, ⟨[1, 2], 1⟩, ⟨0, 1, []⟩⟩ (by decide) (by decide) (by decide)
    (by decide) (by decide)

/-- C1 (code bug): on a buffer whose first varint encodes a tag with
field-number portion `2 ^ 31 > MaxInt32`, `DecodeTagAndWireType` does
report the tag-out-of-range error, but `MessageEach` discards it (the `err`
from the tag decode is compared only against `io.EOF` and then overwritten
by `readValueFromBuffer`'s result): it continues, decodes the following
varint value `1`, invokes the callback with `fieldNum = 0`, and — with an
always-continue callback — returns `nil` instead of the TagOutOfRange error
the claim requires.  The third conjunct shows the callback really is
invoked with `fieldNum = 0` and the decoded value `1`, since its own
reported error comes back out. -/
theorem c1_messageEach_drops_tag_error :
    ((Buffer.mk [128, 128, 128, 128, 64, 1] 0).DecodeTagAndWireType).err =
        some (GoErr.tagOutOfRange (2 ^ 31)) ∧
      MessageEach (Buffer.mk [128, 128, 128, 128, 64, 1] 0)
        (fun _ _ => (true, none)) = some none ∧
      MessageEach (Buffer.mk [128, 128, 128, 128, 64, 1] 0)
        (fun fieldNum value =>
          (false,
            some (GoErr.readValueDecode fieldNum
              (GoErr.unknownWireType value.number)))) =
        some (some (GoErr.readValueDecode 0 (GoErr.unknownWireType 1))) := by
  decide
